import Mathlib

/-!
Verification of the harpoon-core hygiene engine
(`src/crates/harpoon-core/src/lib.rs`).

The engine is embedded shallowly: strings are processed as `List Char`,
Rust `f32` arithmetic is modelled exactly over `ℚ`, machine integers are
`Nat` with explicit `% 2^w` where overflow matters, and the `run_cycle`
loop is a fuel-indexed step function returning `Option` (`none` models
fuel exhaustion or an out-of-range index panic).
-/

set_option maxRecDepth 4000

/-- Unicode `White_Space` code points, as used by Rust `char::is_whitespace`,
`str::trim`, `str::split_whitespace` and the regex class `\s`. -/
def isRustWS (c : Char) : Bool :=
  let u := c.toNat
  u == 0x9 || u == 0xA || u == 0xB || u == 0xC || u == 0xD || u == 0x20 ||
  u == 0x85 || u == 0xA0 || u == 0x1680 ||
  (0x2000 ≤ u && u ≤ 0x200A) || u == 0x2028 || u == 0x2029 ||
  u == 0x202F || u == 0x205F || u == 0x3000

/-- Split a character list at every newline, keeping empty segments
(the raw segments seen by `(?m)^` in the keyword regexes). -/
def splitOnNl : List Char → List (List Char)
  | [] => [[]]
  | c :: cs =>
    if c = '\n' then [] :: splitOnNl cs
    else
      match splitOnNl cs with
      | [] => [[c]]
      | l :: ls => (c :: l) :: ls

/-- Strip one trailing carriage return, as Rust `str::lines` does on
newline-terminated lines. -/
def stripCR (l : List Char) : List Char :=
  match l.reverse with
  | '\r' :: rest => rest.reverse
  | _ => l

/-- Model of Rust `str::lines`: split inclusively on `'\n'`; every
newline-terminated segment has a trailing `'\r'` stripped; a final
unterminated empty segment yields no line. -/
def rustLinesCore : List (List Char) → List (List Char)
  | [] => []
  | [l] => if l.isEmpty then [] else [l]
  | l :: ls => stripCR l :: rustLinesCore ls

/-- The lines of a body, as produced by Rust `body.lines()`. -/
def rustLines (s : List Char) : List (List Char) :=
  rustLinesCore (splitOnNl s)

/-- Count of maximal non-whitespace runs: Rust `str::split_whitespace().count()`. -/
def tokenCountAux : List Char → Bool → Nat
  | [], _ => 0
  | c :: cs, inWord =>
    if isRustWS c then tokenCountAux cs false
    else (if inWord then 0 else 1) + tokenCountAux cs true

/-- Number of whitespace-separated tokens in a body. -/
def tokenCount (l : List Char) : Nat := tokenCountAux l false

/-- Whether `pre` is an initial segment of `l`. -/
def chStarts : List Char → List Char → Bool
  | [], _ => true
  | _ :: _, [] => false
  | p :: ps, c :: cs => p == c && chStarts ps cs

/-- Whether `suf` is a final segment of `l`. -/
def chEnds (suf l : List Char) : Bool :=
  chStarts suf.reverse l.reverse

/-- Rust `str::trim`: drop Unicode whitespace from both ends. -/
def rustTrim (l : List Char) : List Char :=
  ((l.dropWhile isRustWS).reverse.dropWhile isRustWS).reverse

/-- ASCII lowercasing of a single character (`u8::to_ascii_lowercase`). -/
def asciiLower (c : Char) : Char :=
  if 'A' ≤ c ∧ c ≤ 'Z' then Char.ofNat (c.toNat + 32) else c

/-- Whether the body matches the multiline pattern `(?m)^\s*(k₁|…|kₙ)`:
some raw newline-delimited segment, after leading whitespace, starts with
one of the keywords. -/
def kwMatch (kws : List (List Char)) (body : List Char) : Bool :=
  (splitOnNl body).any fun line =>
    kws.any fun k => chStarts k (line.dropWhile isRustWS)

/-- Alternatives of the `PY_KEYWORDS` regex. -/
def pyKeywords : List (List Char) :=
  [("def ").data, ("class ").data, ("async ").data, ("from ").data, ("import ").data]

/-- Alternatives of the `RUST_KEYWORDS` regex. -/
def rustKeywords : List (List Char) :=
  [("pub ").data, ("fn ").data, ("impl ").data, ("use ").data, ("struct ").data, ("enum ").data]

/-- Alternatives of the `JS_KEYWORDS` regex. -/
def jsKeywords : List (List Char) :=
  [("export ").data, ("import ").data, ("const ").data, ("let ").data,
   ("async ").data, ("function ").data]

/-- `detect_language` from the source: extension checks on the
ASCII-lowercased path, or keyword-pattern matches on the body, with
first-match-wins precedence python, rust, typescript, config, text. -/
def detect_language (path body : String) : String :=
  let lower := path.data.map asciiLower
  if chEnds (".py").data lower || kwMatch pyKeywords body.data then "python"
  else if chEnds (".rs").data lower || kwMatch rustKeywords body.data then "rust"
  else if chEnds (".ts").data lower || chEnds (".tsx").data lower ||
          chEnds (".js").data lower || kwMatch jsKeywords body.data then "typescript"
  else if chEnds (".json").data lower || chEnds (".yaml").data lower ||
          chEnds (".yml").data lower then "config"
  else "text"

/-- Rust `f32::clamp`: low clamp checked first, then high clamp. -/
def ratClamp (x lo hi : ℚ) : ℚ :=
  if x < lo then lo else if hi < x then hi else x

/-- Rust `f32::round`: round half away from zero. -/
def rustRound (q : ℚ) : ℚ :=
  if q < 0 then -((⌊-q + 1 / 2⌋ : ℤ) : ℚ) else ((⌊q + 1 / 2⌋ : ℤ) : ℚ)

/-- `(score * 10000.0).round() / 10000.0`. -/
def round4 (q : ℚ) : ℚ := rustRound (q * 10000) / 10000

/-- The final clamp of `hygiene_score`: cap at 1, then floor at 0. -/
def clampScore (score : ℚ) : ℚ :=
  let s := if 1 < score then 1 else score
  if s < 0 then 0 else s

/-- `compute_indent_balance` from the source: population variance of the
leading space/tab counts of non-blank lines, turned into a stability in
`[0,1]`; `0.5` when there are no non-blank lines. -/
def compute_indent_balance (body : String) : ℚ :=
  let depths : List ℚ :=
    ((rustLines body.data).filter fun l => !(rustTrim l).isEmpty).map
      fun l => ((l.takeWhile fun c => c == ' ' || c == '\t').length : ℚ)
  if depths.isEmpty then 1 / 2
  else
    let avg := depths.sum / (depths.length : ℚ)
    let variance := (depths.map fun d => (d - avg) ^ 2).sum / (depths.length : ℚ)
    ratClamp (1 / (1 + variance / 16)) 0 1

/-- Whether a trimmed line counts as a comment for the given language,
as in `compute_comment_ratio` in the source. -/
def isCommentLine (language : String) (trimmed : List Char) : Bool :=
  if language == "python" then chStarts [Char.ofNat 35] trimmed
  else if language == "rust" then
    chStarts ("//").data trimmed || chStarts ("/*").data trimmed
  else if language == "typescript" then
    chStarts ("//").data trimmed || chStarts ("/*").data trimmed
  else chStarts [Char.ofNat 35] trimmed || chStarts ("//").data trimmed

/-- `compute_comment_ratio` from the source (the `"config"` arm of the
Rust `match` coincides with the catch-all arm): comment lines over
non-blank lines, `0` when there are none. -/
def computeCommentRatio (body language : String) : ℚ :=
  let nonBlank := (rustLines body.data).filter fun l => !(rustTrim l).isEmpty
  let total := nonBlank.length
  let comments := (nonBlank.filter fun l => isCommentLine language (rustTrim l)).length
  if total = 0 then 0 else (comments : ℚ) / (total : ℚ)

/-- `hygiene_score` from the source: densities over the whole body's
line, char and token counts (each floored at 1), indent stability,
comment penalty, a per-language structure bonus, clamped to `[0,1]` and
rounded to four decimal places. -/
def hygiene_score (body language : String) : ℚ :=
  let line_count : ℚ := (max (rustLines body.data).length 1 : ℕ)
  let char_count : ℚ := (max body.data.length 1 : ℕ)
  let token_count : ℚ := (max (tokenCount body.data) 1 : ℕ)
  let indent_balance := compute_indent_balance body
  let comment_r := computeCommentRatio body language
  let structure_bonus : ℚ :=
    if language == "python" || language == "rust" || language == "typescript" then 0.1
    else if language == "config" then 0.05
    else 0
  let token_density := ratClamp (token_count / line_count / 8) 0 1
  let char_density := ratClamp (char_count / line_count / 120) 0 1
  let indent_quality := ratClamp indent_balance 0 1
  let comment_penalty := ratClamp (1 - ratClamp comment_r 0 0.8 / 0.8) 0 1
  round4 (clampScore
    (0.25 * token_density + 0.25 * char_density + 0.25 * indent_quality +
      0.15 * comment_penalty + structure_bonus))

/-! ## Content identity: SHA3-256, hex, unpadded base64

`compute_anchor_hash` and `compute_fingerprint` in the source delegate to
the `sha3`, `hex` and `base64` crates; the algorithms (FIPS 202 SHA3-256,
lowercase hex, standard-alphabet unpadded base64) are embedded here
concretely over `Nat` with explicit `% 2^64` masking. -/

/-- UTF-8 encoding of one scalar value, as Rust `str::as_bytes` sees it. -/
def utf8Char (c : Char) : List Nat :=
  let u := c.toNat
  if u < 0x80 then [u]
  else if u < 0x800 then [0xC0 ||| (u >>> 6), 0x80 ||| (u &&& 0x3F)]
  else if u < 0x10000 then
    [0xE0 ||| (u >>> 12), 0x80 ||| ((u >>> 6) &&& 0x3F), 0x80 ||| (u &&& 0x3F)]
  else
    [0xF0 ||| (u >>> 18), 0x80 ||| ((u >>> 12) &&& 0x3F),
     0x80 ||| ((u >>> 6) &&& 0x3F), 0x80 ||| (u &&& 0x3F)]

/-- UTF-8 byte sequence of a character list. -/
def utf8Bytes (l : List Char) : List Nat := (l.map utf8Char).flatten

/-- 64-bit lane mask. -/
def M64 : Nat := 2 ^ 64

/-- Rotate a 64-bit lane left by `n`. -/
def rotl64 (x n : Nat) : Nat := ((x <<< n) % M64) ||| (x >>> (64 - n))

/-- Lane `(x, y)` of a Keccak state (25 lanes, row-major `5*y + x`). -/
def lane (st : List Nat) (x y : Nat) : Nat := st.getD (5 * (y % 5) + x % 5) 0

/-- Keccak θ step. -/
def theta (st : List Nat) : List Nat :=
  let C := fun x => lane st x 0 ^^^ lane st x 1 ^^^ lane st x 2 ^^^ lane st x 3 ^^^ lane st x 4
  let D := fun x => C ((x + 4) % 5) ^^^ rotl64 (C ((x + 1) % 5)) 1
  (List.range 25).map fun i => st.getD i 0 ^^^ D (i % 5)

/-- The lane visited after `t` steps of the ρ/π walk
`(x, y) ↦ (y, (2x + 3y) % 5)` from `(1, 0)` (FIPS 202). -/
def rhoPos : Nat → Nat × Nat
  | 0 => (1, 0)
  | t + 1 => ((rhoPos t).2, (2 * (rhoPos t).1 + 3 * (rhoPos t).2) % 5)

/-- Keccak ρ rotation offsets, indexed by `5*y + x`: lane `(x, y)` visited
at walk step `t` rotates by the triangular number `(t+1)(t+2)/2 mod 64`;
lane `(0, 0)` does not rotate. -/
def rotOffsets : List Nat :=
  (List.range 25).map fun i =>
    match (List.range 24).find? (fun t => rhoPos t = (i % 5, i / 5)) with
    | some t => ((t + 1) * (t + 2) / 2) % 64
    | none => 0

/-- Keccak ρ and π steps combined: destination `(x', y')` takes lane
`((x' + 3y') % 5, x')` rotated by its offset. -/
def rhoPi (st : List Nat) : List Nat :=
  (List.range 25).map fun j =>
    let xp := j % 5
    let yp := j / 5
    let x := (xp + 3 * yp) % 5
    let y := xp
    rotl64 (lane st x y) (rotOffsets.getD (5 * y + x) 0)

/-- Keccak χ step (`~b` is `b ^^^ (2^64 - 1)` on masked lanes). -/
def chi (st : List Nat) : List Nat :=
  (List.range 25).map fun j =>
    let x := j % 5
    let y := j / 5
    lane st x y ^^^ ((lane st (x + 1) y ^^^ (M64 - 1)) &&& lane st (x + 2) y)

/-- The FIPS 202 degree-8 LFSR (polynomial `x^8 + x^6 + x^5 + x^4 + 1`)
after `t` steps from `1`; its low bit is `rc(t)`. -/
def rcLfsr : Nat → Nat
  | 0 => 1
  | t + 1 =>
    ((rcLfsr t <<< 1) ^^^ (if rcLfsr t &&& 0x80 ≠ 0 then 0x71 else 0)) &&& 0xFF

/-- Keccak round constant for round `r`: bit `2^j - 1` is `rc(j + 7r)`. -/
def roundConst (r : Nat) : Nat :=
  (List.range 7).foldl (fun acc j => acc ||| ((rcLfsr (j + 7 * r) &&& 1) <<< (2 ^ j - 1))) 0

/-- Keccak round constants for the 24 rounds. -/
def roundConsts : List Nat := (List.range 24).map roundConst

/-- One Keccak-f[1600] round. -/
def keccakRound (st : List Nat) (r : Nat) : List Nat :=
  let s := chi (rhoPi (theta st))
  s.set 0 (s.getD 0 0 ^^^ roundConsts.getD r 0)

/-- The Keccak-f[1600] permutation (24 rounds). -/
def keccakP (st : List Nat) : List Nat := (List.range 24).foldl keccakRound st

/-- A 64-bit lane from at most eight little-endian bytes. -/
def laneOfBytes (bs : List Nat) : Nat := bs.foldr (fun b acc => acc * 256 + b) 0

/-- XOR a 136-byte rate block into the first 17 lanes of the state. -/
def xorBlock (st : List Nat) (block : List Nat) : List Nat :=
  (List.range 25).map fun i =>
    if i < 17 then st.getD i 0 ^^^ laneOfBytes ((block.drop (8 * i)).take 8)
    else st.getD i 0

/-- The `pad10*1` suffix for SHA3 (domain byte `0x06`) at rate 136. -/
def sha3pad (len : Nat) : List Nat :=
  let q := 136 - len % 136
  if q = 1 then [0x86] else 0x06 :: (List.replicate (q - 2) 0 ++ [0x80])

/-- Split a byte list into 136-byte blocks (`k` is fuel ≥ the block count). -/
def chunks136 : Nat → List Nat → List (List Nat)
  | 0, _ => []
  | _ + 1, [] => []
  | k + 1, l => l.take 136 :: chunks136 k (l.drop 136)

/-- Absorb all rate blocks into the sponge. -/
def absorb (st : List Nat) (blocks : List (List Nat)) : List Nat :=
  blocks.foldl (fun s b => keccakP (xorBlock s b)) st

/-- Eight little-endian bytes of a 64-bit lane. -/
def laneBytes (l : Nat) : List Nat := (List.range 8).map fun k => (l >>> (8 * k)) % 256

/-- SHA3-256 digest (32 bytes) of a byte sequence. -/
def sha3_256 (msg : List Nat) : List Nat :=
  let padded := msg ++ sha3pad msg.length
  let final := absorb (List.replicate 25 0) (chunks136 padded.length padded)
  ((final.map laneBytes).flatten).take 32

/-- The sixteen lowercase hex digits. -/
def hexChars : List Char := ("0123456789abcdef").data

/-- One lowercase hex digit. -/
def hexDigit (n : Nat) : Char := hexChars.getD (n % 16) '0'

/-- Lowercase hex encoding of a byte list (`hex::encode`). -/
def hexEncode (bs : List Nat) : String :=
  String.mk (bs.foldr (fun b acc => hexDigit (b / 16) :: hexDigit (b % 16) :: acc) [])

/-- The standard base64 alphabet. -/
def b64Chars : List Char :=
  ("ABCDEFGHIJKLMNOPQRSTUVWXYZabcdefghijklmnopqrstuvwxyz0123456789+/").data

/-- One base64 digit. -/
def b64Digit (n : Nat) : Char := b64Chars.getD (n % 64) 'A'

/-- Unpadded standard base64 (`base64::STANDARD_NO_PAD`); `k` is fuel ≥ the
byte count. -/
def b64Go : Nat → List Nat → List Char
  | _, [] => []
  | 0, _ => []
  | _ + 1, [b0] => [b64Digit (b0 >>> 2), b64Digit ((b0 % 4) <<< 4)]
  | _ + 1, [b0, b1] =>
    [b64Digit (b0 >>> 2), b64Digit (((b0 % 4) <<< 4) ||| (b1 >>> 4)),
     b64Digit ((b1 % 16) <<< 2)]
  | k + 1, b0 :: b1 :: b2 :: rest =>
    b64Digit (b0 >>> 2) :: b64Digit (((b0 % 4) <<< 4) ||| (b1 >>> 4)) ::
    b64Digit (((b1 % 16) <<< 2) ||| (b2 >>> 6)) :: b64Digit (b2 % 64) :: b64Go k rest

/-- Unpadded base64 encoding of a byte list. -/
def base64NoPad (bs : List Nat) : String := String.mk (b64Go bs.length bs)

/-- `compute_anchor_hash`: lowercase hex of the SHA3-256 digest of the
body's UTF-8 bytes. -/
def compute_anchor_hash (body : String) : String :=
  hexEncode (sha3_256 (utf8Bytes body.data))

/-- `compute_fingerprint`: unpadded base64 of the first
`min 12 (digest length)` bytes of the same digest. -/
def compute_fingerprint (body : String) : String :=
  let digest := sha3_256 (utf8Bytes body.data)
  base64NoPad (digest.take (min 12 digest.length))

/-! ## Data model and the cycle runner -/

/-- `FragmentInput`: one raw submitted fragment. -/
structure FragmentInput where
  path : String
  idx : Nat
  lines : String
  body : String
deriving DecidableEq

/-- `FragmentStatus`. -/
inductive FragmentStatus where
  | Pending
  | Requeued
  | Absorbed
deriving DecidableEq

/-- `FragmentState`: the engine-owned derived record. -/
structure FragmentState where
  input : FragmentInput
  hash : String
  fingerprint : String
  language : String
  hygiene_score : Option ℚ
  status : FragmentStatus

/-- `FragmentState::new`: hash, fingerprint and language computed from the
input; no score yet; status `Pending`. -/
def FragmentState.new (input : FragmentInput) : FragmentState :=
  { input := input
    hash := compute_anchor_hash input.body
    fingerprint := compute_fingerprint input.body
    language := detect_language input.path input.body
    hygiene_score := none
    status := FragmentStatus.Pending }

/-- `FragmentReport`: the wire-shaped copy of a state. -/
structure FragmentReport where
  path : String
  idx : Nat
  lines : String
  hash : String
  hygiene_score : Option ℚ
  language : String
  fingerprint : String
  body_len : Nat

/-- `FragmentState::to_report` (`body_len` is the UTF-8 byte count of the
body, Rust `String::len`). -/
def FragmentState.to_report (s : FragmentState) : FragmentReport :=
  { path := s.input.path
    idx := s.input.idx
    lines := s.input.lines
    hash := s.hash
    hygiene_score := s.hygiene_score
    language := s.language
    fingerprint := s.fingerprint
    body_len := (utf8Bytes s.input.body.data).length }

/-- `CycleEvent`. -/
structure CycleEvent where
  event : String
  path : String
  idx : Nat
  lines : String
  hash : String
  hygiene_score : ℚ
  anchor_prev : Option String
  anchor_next : Option String
  language : String
  fingerprint : String
  iteration_index : Nat

/-- `HarpoonCycleData`: the aggregate result of one cycle. -/
structure HarpoonCycleData where
  absorbed : List FragmentReport
  pending : List FragmentReport
  events : List CycleEvent
  iterations : Nat
  anchors : List String

/-- `HarpoonCycleData::default()`. -/
def emptyCycleData : HarpoonCycleData :=
  { absorbed := [], pending := [], events := [], iterations := 0, anchors := [] }

/-- The sequential `compute_states` (the `wasm32` build): a plain map of
`FragmentState::new` over the batch in input order. -/
def compute_states (fragments : List FragmentInput) : List FragmentState :=
  fragments.map FragmentState.new

/-- Modelled from the spec: the thread-pool `compute_states` (the
non-`wasm32` build) hands contiguous runs of at least `max_batch`
fragments to rayon workers and collects the per-chunk results back in
input order; the scheduler's choice of split is modelled as an arbitrary
order-preserving chunking of the input. -/
def compute_states_par (chunking : List (List FragmentInput)) : List FragmentState :=
  (chunking.map fun chunk => chunk.map FragmentState.new).flatten

/-- A `CycleEvent` for the evaluation of state `s` at score `score`. -/
def mkEvent (kind : String) (s : FragmentState) (score : ℚ)
    (prev next : Option String) (iter : Nat) : CycleEvent :=
  { event := kind
    path := s.input.path
    idx := s.input.idx
    lines := s.input.lines
    hash := s.hash
    hygiene_score := score
    anchor_prev := prev
    anchor_next := next
    language := s.language
    fingerprint := s.fingerprint
    iteration_index := iter }

/-- The mutable locals of the `run_cycle` loop. -/
structure LoopState where
  states : List FragmentState
  queue : List Nat
  anchors : List String
  events : List CycleEvent
  absorbedIdx : List Nat
  iterations : Nat
  lastAnchor : Option String

/-- Whether a configured cap stops the loop (`iterations >= limit`). -/
def capHit (cap : Option Nat) (iterations : Nat) : Bool :=
  match cap with
  | none => false
  | some limit => limit ≤ iterations

/-- The absorb branch of the loop body: mark absorbed, record the score,
append hash to `anchors`, log a `fragment_absorbed` event, advance
`last_anchor`. -/
def stepAbsorb (st : LoopState) (i : Nat) (rest : List Nat)
    (s : FragmentState) (score : ℚ) : LoopState :=
  { states := st.states.set i
      { s with hygiene_score := some score, status := FragmentStatus.Absorbed }
    queue := rest
    anchors := st.anchors ++ [s.hash]
    events := st.events ++
      [mkEvent "fragment_absorbed" s score st.lastAnchor (some s.hash) (st.iterations + 1)]
    absorbedIdx := st.absorbedIdx ++ [i]
    iterations := st.iterations + 1
    lastAnchor := some s.hash }

/-- The requeue branch of the loop body: mark requeued, record the score,
log a `fragment_requeued` event with unchanged anchors, push the index to
the back of the queue. -/
def stepRequeue (st : LoopState) (i : Nat) (rest : List Nat)
    (s : FragmentState) (score : ℚ) : LoopState :=
  { states := st.states.set i
      { s with hygiene_score := some score, status := FragmentStatus.Requeued }
    queue := rest ++ [i]
    anchors := st.anchors
    events := st.events ++
      [mkEvent "fragment_requeued" s score st.lastAnchor st.lastAnchor (st.iterations + 1)]
    absorbedIdx := st.absorbedIdx
    iterations := st.iterations + 1
    lastAnchor := st.lastAnchor }

/-- The `while let Some(idx) = queue.pop_front()` loop of `run_cycle`,
indexed by fuel; `none` models fuel exhaustion or the out-of-range-index
panic, and each counted evaluation consumes one unit of fuel. -/
def runLoop (thr : ℚ) (cap : Option Nat) : Nat → LoopState → Option LoopState
  | 0, st =>
    match st.queue with
    | [] => some st
    | _ :: _ => if capHit cap st.iterations then some st else none
  | fuel + 1, st =>
    match st.queue with
    | [] => some st
    | i :: rest =>
      if capHit cap st.iterations then some st
      else
        match st.states.get? i with
        | none => none
        | some s =>
          if thr ≤ hygiene_score s.input.body s.language then
            runLoop thr cap fuel
              (stepAbsorb st i rest s (hygiene_score s.input.body s.language))
          else
            runLoop thr cap fuel
              (stepRequeue st i rest s (hygiene_score s.input.body s.language))

/-- `EngineCore::run_cycle`: empty batches short-circuit to the default
result; otherwise the states are built, the loop runs over the index
queue `0..n`, and the absorbed and residual indices are mapped back to
reports (`none` only on fuel exhaustion or an out-of-range index). -/
def run_cycle (fuel : Nat) (fragments : List FragmentInput) (hygiene_threshold : ℚ)
    (max_iterations : Option Nat) : Option HarpoonCycleData :=
  if fragments.isEmpty then some emptyCycleData
  else
    match runLoop hygiene_threshold max_iterations fuel
      { states := compute_states fragments,
        queue := List.range (compute_states fragments).length, anchors := [],
        events := [], absorbedIdx := [], iterations := 0, lastAnchor := none } with
    | none => none
    | some st =>
      match st.absorbedIdx.mapM (fun i => st.states.get? i),
            st.queue.mapM (fun i => st.states.get? i) with
      | some absSt, some pendSt =>
        some { absorbed := absSt.map FragmentState.to_report
               pending := pendSt.map FragmentState.to_report
               events := st.events
               iterations := st.iterations
               anchors := st.anchors }
      | _, _ => none

/-! ## Loop invariants -/

/-- Placeholder fragment used with `List.getD`. -/
def dfltFrag : FragmentInput := { path := "", idx := 0, lines := "", body := "" }

/-- The deterministic score a fragment receives at every evaluation. -/
def scoreOfFrag (f : FragmentInput) : ℚ :=
  hygiene_score f.body (detect_language f.path f.body)

/-- A state cell carries its originating fragment's identity fields, and
any recorded score is the fragment's deterministic score. -/
def stateMatches (f : FragmentInput) (s : FragmentState) : Prop :=
  s.input = f ∧ s.hash = compute_anchor_hash f.body ∧
  s.fingerprint = compute_fingerprint f.body ∧
  s.language = detect_language f.path f.body ∧
  (s.hygiene_score = none ∨ s.hygiene_score = some (scoreOfFrag f))

/-- The loop invariant of `run_cycle` over batch `frags`. -/
structure LoopInv (thr : ℚ) (frags : List FragmentInput) (st : LoopState) : Prop where
  len : st.states.length = frags.length
  stOk : ∀ i, i < frags.length →
    ∃ s, st.states.get? i = some s ∧ stateMatches (frags.getD i dfltFrag) s
  perm : (st.absorbedIdx ++ st.queue).Perm (List.range frags.length)
  evlen : st.events.length = st.iterations
  anch : st.anchors =
    st.absorbedIdx.map fun i => compute_anchor_hash (frags.getD i dfltFrag).body
  absOk : ∀ i ∈ st.absorbedIdx, thr ≤ scoreOfFrag (frags.getD i dfltFrag) ∧
    ∀ s, st.states.get? i = some s →
      s.hygiene_score = some (scoreOfFrag (frags.getD i dfltFrag))
  pendOk : ∀ i ∈ st.queue, ∀ s, st.states.get? i = some s →
    s.hygiene_score = none ∨ ¬ thr ≤ scoreOfFrag (frags.getD i dfltFrag)

theorem stateMatches_new (f : FragmentInput) : stateMatches f (FragmentState.new f) :=
  ⟨rfl, rfl, rfl, rfl, Or.inl rfl⟩

theorem get?_eq_some_getD {α : Type} (l : List α) (d : α) (i : Nat) (h : i < l.length) :
    l.get? i = some (l.getD i d) := by
  induction l generalizing i with
  | nil => simp at h
  | cons a t ih =>
    cases i with
    | zero => rfl
    | succ n => simpa using ih n (by simpa using h)

theorem get?_map_eq {α β : Type} (f : α → β) (l : List α) (i : Nat) :
    (l.map f).get? i = (l.get? i).map f := by
  induction l generalizing i with
  | nil => cases i <;> rfl
  | cons a t ih => cases i with
    | zero => rfl
    | succ n => exact ih n

theorem get?_set_self {α : Type} (a : α) {i : Nat} {l : List α} (h : i < l.length) :
    (l.set i a).get? i = some a := by
  induction l generalizing i with
  | nil => simp at h
  | cons b t ih => cases i with
    | zero => rfl
    | succ n => exact ih (by simpa using h)

theorem get?_set_other {α : Type} (a : α) {i j : Nat} (l : List α) (h : i ≠ j) :
    (l.set i a).get? j = l.get? j := by
  induction l generalizing i j with
  | nil => rfl
  | cons b t ih =>
    cases i with
    | zero => cases j with
      | zero => exact absurd rfl h
      | succ m => rfl
    | succ n => cases j with
      | zero => rfl
      | succ m => exact ih fun hnm => h (by rw [hnm])

/-- The invariant holds on the loop's initial state. -/
theorem loopInv_init (thr : ℚ) (frags : List FragmentInput) :
    LoopInv thr frags
      { states := compute_states frags,
        queue := List.range (compute_states frags).length, anchors := [],
        events := [], absorbedIdx := [], iterations := 0, lastAnchor := none } where
  len := by simp [compute_states]
  stOk := by
    intro i hi
    refine ⟨FragmentState.new (frags.getD i dfltFrag), ?_, stateMatches_new _⟩
    show (frags.map FragmentState.new).get? i = _
    rw [get?_map_eq, get?_eq_some_getD frags dfltFrag i hi]
    rfl
  perm := by simp [compute_states]
  evlen := rfl
  anch := rfl
  absOk := by intro i hi; simp at hi
  pendOk := by
    intro i hi s hs
    left
    have : (frags.map FragmentState.new).get? i = some s := hs
    rw [get?_map_eq] at this
    cases hf : frags.get? i with
    | none => rw [hf] at this; cases this
    | some f =>
      rw [hf] at this
      cases this
      rfl

theorem mem_lt_of_perm {frags : List FragmentInput} {st : LoopState}
    (perm : (st.absorbedIdx ++ st.queue).Perm (List.range frags.length))
    {i : Nat} (h : i ∈ st.absorbedIdx ++ st.queue) : i < frags.length := by
  have := perm.mem_iff.mp h
  simpa using this

/-- Absorbing the dequeued index preserves the loop invariant. -/
theorem loopInv_stepAbsorb {thr : ℚ} {frags : List FragmentInput} {st : LoopState}
    {i : Nat} {rest : List Nat} {s : FragmentState}
    (inv : LoopInv thr frags st) (hq : st.queue = i :: rest)
    (hs : st.states.get? i = some s)
    (hab : thr ≤ hygiene_score s.input.body s.language) :
    LoopInv thr frags (stepAbsorb st i rest s (hygiene_score s.input.body s.language)) := by
  have hiq : i ∈ st.absorbedIdx ++ st.queue := by
    rw [hq]; exact List.mem_append_right _ (List.mem_cons_self i rest)
  have hilt : i < frags.length := mem_lt_of_perm inv.perm hiq
  obtain ⟨s₀, hs₀, hm⟩ := inv.stOk i hilt
  have hss : s₀ = s := by rw [hs₀] at hs; exact Option.some.inj hs
  subst hss
  obtain ⟨hin, hha, hfp, hla, hsc⟩ := hm
  have hscore : hygiene_score s₀.input.body s₀.language
      = scoreOfFrag (frags.getD i dfltFrag) := by
    rw [hin, hla]; rfl
  have hnodup : (st.absorbedIdx ++ st.queue).Nodup :=
    inv.perm.nodup_iff.mpr (List.nodup_range _)
  rw [hq] at hnodup
  have hnA : i ∉ st.absorbedIdx := fun hmem =>
    (List.nodup_append.mp hnodup).2.2 hmem (List.mem_cons_self _ _)
  have hnR : i ∉ rest :=
    (List.nodup_cons.mp (List.nodup_append.mp hnodup).2.1).1
  have hlen : i < st.states.length := inv.len ▸ hilt
  refine { len := ?_, stOk := ?_, perm := ?_, evlen := ?_, anch := ?_,
           absOk := ?_, pendOk := ?_ }
  · simpa [stepAbsorb] using inv.len
  · intro j hj
    simp only [stepAbsorb]
    by_cases hij : j = i
    · subst hij
      refine ⟨_, get?_set_self _ (inv.len ▸ hj), ?_⟩
      exact ⟨hin, hha, hfp, hla, Or.inr (by rw [hscore])⟩
    · obtain ⟨t, ht, hmt⟩ := inv.stOk j hj
      exact ⟨t, by rw [get?_set_other _ _ fun h => hij h.symm]; exact ht, hmt⟩
  · simp only [stepAbsorb]
    rw [List.append_assoc, List.singleton_append]
    have hp := inv.perm
    rw [hq] at hp
    exact hp
  · simp [stepAbsorb, inv.evlen]
  · simp only [stepAbsorb]
    rw [List.map_append, inv.anch, hha]
    rfl
  · intro j hj
    simp only [stepAbsorb] at hj ⊢
    rcases List.mem_append.mp hj with hjA | hji
    · have hji' : j ≠ i := fun h => hnA (h ▸ hjA)
      obtain ⟨h1, h2⟩ := inv.absOk j hjA
      refine ⟨h1, ?_⟩
      intro t ht
      rw [get?_set_other _ _ fun h => hji' h.symm] at ht
      exact h2 t ht
    · have hji' : j = i := by simpa using hji
      subst hji'
      refine ⟨hscore ▸ hab, ?_⟩
      intro t ht
      rw [get?_set_self _ hlen] at ht
      cases Option.some.inj ht
      show some (hygiene_score s₀.input.body s₀.language) = _
      rw [hscore]
  · intro j hj t ht
    simp only [stepAbsorb] at hj ht
    have hjq : j ∈ st.queue := by rw [hq]; exact List.mem_cons_of_mem _ hj
    have hji : j ≠ i := fun h => hnR (h ▸ hj)
    rw [get?_set_other _ _ fun h => hji h.symm] at ht
    exact inv.pendOk j hjq t ht

/-- Requeuing the dequeued index preserves the loop invariant. -/
theorem loopInv_stepRequeue {thr : ℚ} {frags : List FragmentInput} {st : LoopState}
    {i : Nat} {rest : List Nat} {s : FragmentState}
    (inv : LoopInv thr frags st) (hq : st.queue = i :: rest)
    (hs : st.states.get? i = some s)
    (hre : ¬ thr ≤ hygiene_score s.input.body s.language) :
    LoopInv thr frags (stepRequeue st i rest s (hygiene_score s.input.body s.language)) := by
  have hiq : i ∈ st.absorbedIdx ++ st.queue := by
    rw [hq]; exact List.mem_append_right _ (List.mem_cons_self i rest)
  have hilt : i < frags.length := mem_lt_of_perm inv.perm hiq
  obtain ⟨s₀, hs₀, hm⟩ := inv.stOk i hilt
  have hss : s₀ = s := by rw [hs₀] at hs; exact Option.some.inj hs
  subst hss
  obtain ⟨hin, hha, hfp, hla, hsc⟩ := hm
  have hscore : hygiene_score s₀.input.body s₀.language
      = scoreOfFrag (frags.getD i dfltFrag) := by
    rw [hin, hla]; rfl
  have hnodup : (st.absorbedIdx ++ st.queue).Nodup :=
    inv.perm.nodup_iff.mpr (List.nodup_range _)
  rw [hq] at hnodup
  have hnA : i ∉ st.absorbedIdx := fun hmem =>
    (List.nodup_append.mp hnodup).2.2 hmem (List.mem_cons_self _ _)
  have hnR : i ∉ rest :=
    (List.nodup_cons.mp (List.nodup_append.mp hnodup).2.1).1
  have hlen : i < st.states.length := inv.len ▸ hilt
  refine { len := ?_, stOk := ?_, perm := ?_, evlen := ?_, anch := ?_,
           absOk := ?_, pendOk := ?_ }
  · simpa [stepRequeue] using inv.len
  · intro j hj
    simp only [stepRequeue]
    by_cases hij : j = i
    · subst hij
      refine ⟨_, get?_set_self _ (inv.len ▸ hj), ?_⟩
      exact ⟨hin, hha, hfp, hla, Or.inr (by rw [hscore])⟩
    · obtain ⟨t, ht, hmt⟩ := inv.stOk j hj
      exact ⟨t, by rw [get?_set_other _ _ fun h => hij h.symm]; exact ht, hmt⟩
  · simp only [stepRequeue]
    refine List.Perm.trans (List.Perm.append_left _ ?_) (hq ▸ inv.perm)
    exact List.perm_append_singleton _ _
  · simp [stepRequeue, inv.evlen]
  · simpa [stepRequeue] using inv.anch
  · intro j hj
    simp only [stepRequeue] at hj ⊢
    have hji' : j ≠ i := fun h => hnA (h ▸ hj)
    obtain ⟨h1, h2⟩ := inv.absOk j hj
    refine ⟨h1, ?_⟩
    intro t ht
    rw [get?_set_other _ _ fun h => hji' h.symm] at ht
    exact h2 t ht
  · intro j hj t ht
    simp only [stepRequeue] at hj ht
    rcases List.mem_append.mp hj with hjr | hjii
    · have hjq : j ∈ st.queue := by rw [hq]; exact List.mem_cons_of_mem _ hjr
      have hji : j ≠ i := fun h => hnR (h ▸ hjr)
      rw [get?_set_other _ _ fun h => hji h.symm] at ht
      exact inv.pendOk j hjq t ht
    · have hji' : j = i := by simpa using hjii
      subst hji'
      right
      rw [← hscore]
      exact hre

/-! ## Score bounds and loop facts -/

theorem clampScore_mem (x : ℚ) : 0 ≤ clampScore x ∧ clampScore x ≤ 1 := by
  have hcl : clampScore x
      = if (if 1 < x then (1 : ℚ) else x) < 0 then 0 else if 1 < x then (1 : ℚ) else x := rfl
  rw [hcl]
  split_ifs <;> constructor <;> linarith

theorem round4_mem {y : ℚ} (h0 : 0 ≤ y) (h1 : y ≤ 1) :
    0 ≤ round4 y ∧ round4 y ≤ 1 := by
  have hq0 : (0 : ℚ) ≤ y * 10000 + 1 / 2 := by linarith
  have hql : y * 10000 + 1 / 2 ≤ 10000 + 1 / 2 := by linarith
  have hnn : ¬ (y * 10000 < 0) := by linarith
  have hfl : (0 : ℤ) ≤ ⌊y * 10000 + 1 / 2⌋ := Int.floor_nonneg.mpr hq0
  have h2 : ⌊(10000 + 1 / 2 : ℚ)⌋ = 10000 := by
    rw [Int.floor_eq_iff]
    norm_num
  have hfu : ⌊y * 10000 + 1 / 2⌋ ≤ 10000 := by
    have := Int.floor_le_floor hql
    rwa [h2] at this
  unfold round4 rustRound
  rw [if_neg hnn]
  constructor
  · exact div_nonneg (by exact_mod_cast hfl) (by norm_num)
  · rw [div_le_one (by norm_num)]
    exact_mod_cast hfu

theorem hygiene_score_nonneg (body language : String) :
    0 ≤ hygiene_score body language :=
  (round4_mem (clampScore_mem _).1 (clampScore_mem _).2).1

theorem hygiene_score_le_one (body language : String) :
    hygiene_score body language ≤ 1 :=
  (round4_mem (clampScore_mem _).1 (clampScore_mem _).2).2

/-- The loop invariant is preserved by `runLoop`. -/
theorem runLoop_inv {thr : ℚ} {cap : Option Nat} {frags : List FragmentInput} :
    ∀ fuel (st st' : LoopState), LoopInv thr frags st →
      runLoop thr cap fuel st = some st' → LoopInv thr frags st' := by
  intro fuel
  induction fuel with
  | zero =>
    intro st st' inv h
    cases hq : st.queue with
    | nil =>
      simp only [runLoop, hq] at h
      cases h
      exact inv
    | cons i rest =>
      simp only [runLoop, hq] at h
      by_cases hc : capHit cap st.iterations = true
      · rw [if_pos hc] at h; cases h; exact inv
      · rw [if_neg hc] at h; cases h
  | succ fuel ih =>
    intro st st' inv h
    cases hq : st.queue with
    | nil =>
      simp only [runLoop, hq] at h
      cases h
      exact inv
    | cons i rest =>
      simp only [runLoop, hq] at h
      by_cases hc : capHit cap st.iterations = true
      · rw [if_pos hc] at h; cases h; exact inv
      · rw [if_neg hc] at h
        cases hs : st.states.get? i with
        | none => simp only [hs] at h; cases h
        | some s =>
          simp only [hs] at h
          by_cases hab : thr ≤ hygiene_score s.input.body s.language
          · rw [if_pos hab] at h
            exact ih _ _ (loopInv_stepAbsorb inv hq hs hab) h
          · rw [if_neg hab] at h
            exact ih _ _ (loopInv_stepRequeue inv hq hs hab) h

/-- A capped loop never pushes `iterations` beyond the cap. -/
theorem runLoop_iter_le {thr : ℚ} {limit : Nat} :
    ∀ fuel (st st' : LoopState), st.iterations ≤ limit →
      runLoop thr (some limit) fuel st = some st' → st'.iterations ≤ limit := by
  intro fuel
  induction fuel with
  | zero =>
    intro st st' hle h
    cases hq : st.queue with
    | nil => simp only [runLoop, hq] at h; cases h; exact hle
    | cons i rest =>
      simp only [runLoop, hq] at h
      by_cases hc : capHit (some limit) st.iterations = true
      · rw [if_pos hc] at h; cases h; exact hle
      · rw [if_neg hc] at h; cases h
  | succ fuel ih =>
    intro st st' hle h
    cases hq : st.queue with
    | nil => simp only [runLoop, hq] at h; cases h; exact hle
    | cons i rest =>
      simp only [runLoop, hq] at h
      by_cases hc : capHit (some limit) st.iterations = true
      · rw [if_pos hc] at h; cases h; exact hle
      · rw [if_neg hc] at h
        have hlt : st.iterations < limit := by
          simp only [capHit, decide_eq_true_eq] at hc
          omega
        cases hs : st.states.get? i with
        | none => simp only [hs] at h; cases h
        | some s =>
          simp only [hs] at h
          by_cases hab : thr ≤ hygiene_score s.input.body s.language
          · rw [if_pos hab] at h
            exact ih _ _ (by simpa [stepAbsorb] using hlt) h
          · rw [if_neg hab] at h
            exact ih _ _ (by simpa [stepRequeue] using hlt) h

/-- With a cap of `0`, the loop performs no evaluation at all. -/
theorem runLoop_cap0 {thr : ℚ} : ∀ fuel (st : LoopState),
    runLoop thr (some 0) fuel st = some st := by
  intro fuel st
  cases fuel <;> cases hq : st.queue <;>
    simp [runLoop, hq, capHit]

/-- A capped loop terminates once the remaining fuel covers the cap. -/
theorem runLoop_total {thr : ℚ} {limit : Nat} :
    ∀ fuel (st : LoopState), (∀ j ∈ st.queue, j < st.states.length) →
      limit ≤ st.iterations + fuel →
      (runLoop thr (some limit) fuel st).isSome := by
  intro fuel
  induction fuel with
  | zero =>
    intro st hj hfuel
    cases hq : st.queue with
    | nil => simp [runLoop, hq]
    | cons i rest =>
      have hc : capHit (some limit) st.iterations = true := by
        simp only [capHit, decide_eq_true_eq]
        omega
      simp [runLoop, hq, hc]
  | succ fuel ih =>
    intro st hj hfuel
    cases hq : st.queue with
    | nil => simp [runLoop, hq]
    | cons i rest =>
      simp only [runLoop, hq]
      by_cases hc : capHit (some limit) st.iterations = true
      · simp [hc]
      · rw [if_neg hc]
        have hi : i < st.states.length := hj i (by rw [hq]; exact List.mem_cons_self i rest)
        simp only [get?_eq_some_getD st.states (FragmentState.new dfltFrag) i hi]
        by_cases hab : thr ≤ hygiene_score
            (st.states.getD i (FragmentState.new dfltFrag)).input.body
            (st.states.getD i (FragmentState.new dfltFrag)).language
        · rw [if_pos hab]
          refine ih _ ?_ ?_
          · intro j hjr
            simp only [stepAbsorb] at hjr ⊢
            rw [List.length_set]
            exact hj j (by rw [hq]; exact List.mem_cons_of_mem _ hjr)
          · simp only [stepAbsorb]
            omega
        · rw [if_neg hab]
          refine ih _ ?_ ?_
          · intro j hjr
            simp only [stepRequeue] at hjr ⊢
            rw [List.length_set]
            rcases List.mem_append.mp hjr with hr | hii
            · exact hj j (by rw [hq]; exact List.mem_cons_of_mem _ hr)
            · have : j = i := by simpa using hii
              exact this ▸ hi
          · simp only [stepRequeue]
            omega

/-- With a threshold at or below `0`, every evaluation absorbs, so an
uncapped loop drains the queue in exactly one pass. -/
theorem runLoop_absorbAll {thr : ℚ} (hthr : thr ≤ 0) :
    ∀ fuel (st : LoopState), (∀ j ∈ st.queue, j < st.states.length) →
      st.queue.length ≤ fuel →
      ∃ st', runLoop thr none fuel st = some st' ∧ st'.queue = [] ∧
        st'.iterations = st.iterations + st.queue.length ∧
        st'.absorbedIdx = st.absorbedIdx ++ st.queue := by
  intro fuel
  induction fuel with
  | zero =>
    intro st hj hfuel
    have hq : st.queue = [] := List.length_eq_zero.mp (Nat.le_zero.mp hfuel)
    refine ⟨st, ?_, hq, ?_, ?_⟩
    · simp [runLoop, hq]
    · simp [hq]
    · simp [hq]
  | succ fuel ih =>
    intro st hj hfuel
    cases hq : st.queue with
    | nil =>
      refine ⟨st, ?_, hq, ?_, ?_⟩
      · simp [runLoop, hq]
      · simp [hq]
      · simp [hq]
    | cons i rest =>
      simp only [runLoop, hq]
      have hcap : capHit none st.iterations = false := rfl
      rw [hcap]
      simp only [Bool.false_eq_true, if_false]
      have hi : i < st.states.length := hj i (by rw [hq]; exact List.mem_cons_self i rest)
      simp only [get?_eq_some_getD st.states (FragmentState.new dfltFrag) i hi]
      have hab : thr ≤ hygiene_score
          (st.states.getD i (FragmentState.new dfltFrag)).input.body
          (st.states.getD i (FragmentState.new dfltFrag)).language :=
        le_trans hthr (hygiene_score_nonneg _ _)
      rw [if_pos hab]
      obtain ⟨st', hrun, hq', hit, habs⟩ := ih (stepAbsorb st i rest _ _)
        (by
          intro j hjr
          simp only [stepAbsorb] at hjr ⊢
          rw [List.length_set]
          exact hj j (by rw [hq]; exact List.mem_cons_of_mem _ hjr))
        (by
          simp only [stepAbsorb]
          have : st.queue.length = rest.length + 1 := by rw [hq]; rfl
          omega)
      refine ⟨st', hrun, hq', ?_, ?_⟩
      · rw [hit]
        simp only [stepAbsorb, hq, List.length_cons]
        omega
      · rw [habs]
        simp only [stepAbsorb, hq]
        simp [List.append_assoc]

/-- With a threshold above `1`, no evaluation ever absorbs. -/
theorem runLoop_noAbsorb {thr : ℚ} (hthr : 1 < thr) {cap : Option Nat} :
    ∀ fuel (st st' : LoopState), runLoop thr cap fuel st = some st' →
      st'.absorbedIdx = st.absorbedIdx ∧ st'.anchors = st.anchors := by
  intro fuel
  induction fuel with
  | zero =>
    intro st st' h
    cases hq : st.queue with
    | nil => simp only [runLoop, hq] at h; cases h; exact ⟨rfl, rfl⟩
    | cons i rest =>
      simp only [runLoop, hq] at h
      by_cases hc : capHit cap st.iterations = true
      · rw [if_pos hc] at h; cases h; exact ⟨rfl, rfl⟩
      · rw [if_neg hc] at h; cases h
  | succ fuel ih =>
    intro st st' h
    cases hq : st.queue with
    | nil => simp only [runLoop, hq] at h; cases h; exact ⟨rfl, rfl⟩
    | cons i rest =>
      simp only [runLoop, hq] at h
      by_cases hc : capHit cap st.iterations = true
      · rw [if_pos hc] at h; cases h; exact ⟨rfl, rfl⟩
      · rw [if_neg hc] at h
        cases hs : st.states.get? i with
        | none => simp only [hs] at h; cases h
        | some s =>
          simp only [hs] at h
          by_cases hab : thr ≤ hygiene_score s.input.body s.language
          · exact absurd (le_trans hab (hygiene_score_le_one _ _)) (not_le.mpr hthr)
          · rw [if_neg hab] at h
            obtain ⟨h1, h2⟩ := ih _ _ h
            exact ⟨h1, h2⟩

/-- Looking up every index of a list that is in range succeeds, and the
results are pointwise the lookups. -/
theorem mapM_get?_total {states : List FragmentState} :
    ∀ (l : List Nat), (∀ i ∈ l, i < states.length) →
      ∃ out, (l.mapM fun i => states.get? i) = some out ∧
        List.Forall₂ (fun i s => states.get? i = some s) l out := by
  intro l
  induction l with
  | nil => exact fun _ => ⟨[], rfl, List.Forall₂.nil⟩
  | cons a t ih =>
    intro h
    obtain ⟨out, hout, hall⟩ := ih fun i hi => h i (List.mem_cons_of_mem _ hi)
    have ha : states.get? a
        = some (states.getD a (FragmentState.new dfltFrag)) :=
      get?_eq_some_getD _ _ _ (h a (List.mem_cons_self _ _))
    refine ⟨states.getD a (FragmentState.new dfltFrag) :: out, ?_, ?_⟩
    · rw [List.mapM_cons, ha, hout]
      rfl
    · exact List.Forall₂.cons ha hall

theorem forall₂_mem_right {α β : Type} {R : α → β → Prop} :
    ∀ {l : List α} {out : List β}, List.Forall₂ R l out →
      ∀ b ∈ out, ∃ a, a ∈ l ∧ R a b := by
  intro l out h
  induction h with
  | nil => intro b hb; simp at hb
  | cons hR _ ih =>
    intro b hb
    rcases List.mem_cons.mp hb with hb | hb
    · exact ⟨_, List.mem_cons_self _ _, hb ▸ hR⟩
    · obtain ⟨a, ha, hr⟩ := ih b hb
      exact ⟨a, List.mem_cons_of_mem _ ha, hr⟩

theorem forall₂_map_eq {α β γ : Type} {R : α → β → Prop}
    (g : β → γ) (f : α → γ) :
    ∀ {l : List α} {out : List β}, List.Forall₂ R l out →
      (∀ a ∈ l, ∀ b, R a b → g b = f a) → out.map g = l.map f := by
  intro l out h
  induction h with
  | nil => intro _; rfl
  | @cons a b l' out' hR hall ih =>
    intro hfun
    have h1 : g b = f a := hfun a (List.mem_cons_self _ _) b hR
    have h2 := ih fun x hx y hy => hfun x (List.mem_cons_of_mem _ hx) y hy
    simp [h1, h2]

theorem forall₂_length_eq {α β : Type} {R : α → β → Prop} :
    ∀ {l : List α} {out : List β}, List.Forall₂ R l out → out.length = l.length := by
  intro l out h
  induction h with
  | nil => rfl
  | cons _ _ ih => simp [ih]

theorem map_range_getD {α β : Type} (l : List α) (d : α) (g : α → β) :
    (List.range l.length).map (fun i => g (l.getD i d)) = l.map g := by
  induction l with
  | nil => rfl
  | cons a t ih =>
    rw [List.length_cons, List.range_succ_eq_map, List.map_cons, List.map_map]
    have h1 : ((fun i => g ((a :: t).getD i d)) ∘ Nat.succ)
        = fun i => g (t.getD i d) := rfl
    rw [h1, ih]
    rfl

/-- Everything `run_cycle` guarantees at termination: the absorbed and
pending reports are jointly a permutation of the input (projected to
`idx`), `anchors` is the hash trace of `absorbed`, one event was logged
per counted iteration, absorbed reports carry a score at or above the
threshold, pending reports are unevaluated or carry a failing score, and
a configured cap bounds `iterations`. -/
theorem run_cycle_spec {fuel : Nat} {frags : List FragmentInput} {thr : ℚ}
    {cap : Option Nat} {r : HarpoonCycleData}
    (h : run_cycle fuel frags thr cap = some r) :
    ((r.absorbed ++ r.pending).map (fun rep => rep.idx)).Perm
        (frags.map (fun f => f.idx)) ∧
    r.anchors = r.absorbed.map (fun rep => rep.hash) ∧
    r.events.length = r.iterations ∧
    (∀ rep ∈ r.absorbed, ∃ sc, rep.hygiene_score = some sc ∧ thr ≤ sc) ∧
    (∀ rep ∈ r.pending, rep.hygiene_score = none ∨
      ∃ sc, rep.hygiene_score = some sc ∧ ¬ thr ≤ sc) ∧
    (∀ limit, cap = some limit → r.iterations ≤ limit) := by
  by_cases hempty : frags.isEmpty
  · have hfr : frags = [] := List.isEmpty_iff.mp hempty
    unfold run_cycle at h
    rw [if_pos hempty] at h
    cases h
    subst hfr
    refine ⟨List.Perm.refl _, rfl, rfl, ?_, ?_, ?_⟩
    · intro rep hrep; simp [emptyCycleData] at hrep
    · intro rep hrep; simp [emptyCycleData] at hrep
    · intro limit _; exact Nat.zero_le _
  · unfold run_cycle at h
    rw [if_neg hempty] at h
    cases hrun : runLoop thr cap fuel
        { states := compute_states frags,
          queue := List.range (compute_states frags).length, anchors := [],
          events := [], absorbedIdx := [], iterations := 0, lastAnchor := none } with
    | none => simp only [hrun] at h; cases h
    | some st =>
      simp only [hrun] at h
      have inv : LoopInv thr frags st :=
        runLoop_inv fuel _ st (loopInv_init thr frags) hrun
      have habs_lt : ∀ i ∈ st.absorbedIdx, i < st.states.length := fun i hi =>
        inv.len ▸ mem_lt_of_perm inv.perm (List.mem_append_left _ hi)
      have hpend_lt : ∀ i ∈ st.queue, i < st.states.length := fun i hi =>
        inv.len ▸ mem_lt_of_perm inv.perm (List.mem_append_right _ hi)
      obtain ⟨absSt, habs, hfa⟩ := mapM_get?_total st.absorbedIdx habs_lt
      obtain ⟨pendSt, hpend, hfpd⟩ := mapM_get?_total st.queue hpend_lt
      simp only [habs, hpend] at h
      cases h
      have hidxA : (absSt.map FragmentState.to_report).map (fun rep => rep.idx)
          = st.absorbedIdx.map (fun i => (frags.getD i dfltFrag).idx) := by
        rw [List.map_map]
        refine forall₂_map_eq _ _ hfa ?_
        intro i hi s hsi
        have hlt : i < frags.length :=
          mem_lt_of_perm inv.perm (List.mem_append_left _ hi)
        obtain ⟨s₀, hs₀, hm⟩ := inv.stOk i hlt
        rw [hs₀] at hsi
        cases Option.some.inj hsi
        show s.input.idx = _
        rw [hm.1]
      have hidxP : (pendSt.map FragmentState.to_report).map (fun rep => rep.idx)
          = st.queue.map (fun i => (frags.getD i dfltFrag).idx) := by
        rw [List.map_map]
        refine forall₂_map_eq _ _ hfpd ?_
        intro i hi s hsi
        have hlt : i < frags.length :=
          mem_lt_of_perm inv.perm (List.mem_append_right _ hi)
        obtain ⟨s₀, hs₀, hm⟩ := inv.stOk i hlt
        rw [hs₀] at hsi
        cases Option.some.inj hsi
        show s.input.idx = _
        rw [hm.1]
      refine ⟨?_, ?_, inv.evlen, ?_, ?_, ?_⟩
      · show ((absSt.map FragmentState.to_report ++ pendSt.map FragmentState.to_report).map
          (fun rep => rep.idx)).Perm _
        rw [List.map_append, hidxA, hidxP, ← List.map_append]
        have hp := inv.perm.map (fun i => (frags.getD i dfltFrag).idx)
        rwa [map_range_getD frags dfltFrag (fun f => f.idx)] at hp
      · show st.anchors = (absSt.map FragmentState.to_report).map (fun rep => rep.hash)
        rw [List.map_map, inv.anch]
        refine (forall₂_map_eq _ _ hfa ?_).symm
        intro i hi s hsi
        have hlt : i < frags.length :=
          mem_lt_of_perm inv.perm (List.mem_append_left _ hi)
        obtain ⟨s₀, hs₀, hm⟩ := inv.stOk i hlt
        rw [hs₀] at hsi
        cases Option.some.inj hsi
        show s.hash = _
        rw [hm.2.1]
      · intro rep hrep
        obtain ⟨s, hsmem, hrep'⟩ := List.mem_map.mp hrep
        obtain ⟨i, hi, hsi⟩ := forall₂_mem_right hfa s hsmem
        obtain ⟨hsc, hval⟩ := inv.absOk i hi
        refine ⟨scoreOfFrag (frags.getD i dfltFrag), ?_, hsc⟩
        rw [← hrep']
        show s.hygiene_score = _
        exact hval s hsi
      · intro rep hrep
        obtain ⟨s, hsmem, hrep'⟩ := List.mem_map.mp hrep
        obtain ⟨i, hi, hsi⟩ := forall₂_mem_right hfpd s hsmem
        have hlt : i < frags.length :=
          mem_lt_of_perm inv.perm (List.mem_append_right _ hi)
        obtain ⟨s₀, hs₀, hm⟩ := inv.stOk i hlt
        rw [hs₀] at hsi
        cases Option.some.inj hsi
        rcases hm.2.2.2.2 with hnone | hsome
        · left
          rw [← hrep']
          exact hnone
        · rcases inv.pendOk i hi s hs₀ with hnone | hlow
          · rw [hsome] at hnone; cases hnone
          · right
            refine ⟨scoreOfFrag (frags.getD i dfltFrag), ?_, hlow⟩
            rw [← hrep']
            exact hsome
      · intro limit hcap
        subst hcap
        exact runLoop_iter_le fuel _ st (Nat.zero_le _) hrun

/-! ## Claim-level definitions -/

/-- The claim-side scorer (claim C2's words, for comparison): the same
formula as `hygiene_score` but with `line_count`, `char_count` and
`token_count` computed over the non-blank lines of the body only. -/
def hygieneScoreClaimC2 (body language : String) : ℚ :=
  let nonBlank := (rustLines body.data).filter fun l => !(rustTrim l).isEmpty
  let line_count : ℚ := (max nonBlank.length 1 : ℕ)
  let char_count : ℚ := (max (nonBlank.map List.length).sum 1 : ℕ)
  let token_count : ℚ := (max (nonBlank.map tokenCount).sum 1 : ℕ)
  let indent_balance := compute_indent_balance body
  let comment_r := computeCommentRatio body language
  let structure_bonus : ℚ :=
    if language == "python" || language == "rust" || language == "typescript" then 0.1
    else if language == "config" then 0.05
    else 0
  let token_density := ratClamp (token_count / line_count / 8) 0 1
  let char_density := ratClamp (char_count / line_count / 120) 0 1
  let indent_quality := ratClamp indent_balance 0 1
  let comment_penalty := ratClamp (1 - ratClamp comment_r 0 0.8 / 0.8) 0 1
  round4 (clampScore
    (0.25 * token_density + 0.25 * char_density + 0.25 * indent_quality +
      0.15 * comment_penalty + structure_bonus))

/-- Scenario B of the spec: fragment 0 always crosses a `0.5` threshold,
fragment 1 never does. -/
def scenBFrags : List FragmentInput :=
  [{ path := "a.py", idx := 0, lines := "1-2", body := "def f():\n    return 1\n" },
   { path := "b.txt", idx := 1, lines := "1-1", body := "" }]

/-- A batch with a duplicated caller-assigned `idx` whose first fragment
crosses a `0.5` threshold and whose second does not. -/
def dupIdxFrags : List FragmentInput :=
  [{ path := "a.py", idx := 7, lines := "", body := "def f():\n    return 1\n" },
   { path := "b.txt", idx := 7, lines := "", body := "" }]

/-- Condition (1) of `detect_language`: python extension or python keyword. -/
def pyCond (path body : String) : Bool :=
  chEnds (".py").data (path.data.map asciiLower) || kwMatch pyKeywords body.data

/-- Condition (2) of `detect_language`: rust extension or rust keyword. -/
def rustCond (path body : String) : Bool :=
  chEnds (".rs").data (path.data.map asciiLower) || kwMatch rustKeywords body.data

/-- Condition (3) of `detect_language`: ts/tsx/js extension or JS keyword. -/
def tsCond (path body : String) : Bool :=
  chEnds (".ts").data (path.data.map asciiLower) ||
  chEnds (".tsx").data (path.data.map asciiLower) ||
  chEnds (".js").data (path.data.map asciiLower) || kwMatch jsKeywords body.data

/-- Condition (4) of `detect_language`: config extension. -/
def cfgCond (path : String) : Bool :=
  chEnds (".json").data (path.data.map asciiLower) ||
  chEnds (".yaml").data (path.data.map asciiLower) ||
  chEnds (".yml").data (path.data.map asciiLower)

/-! ## Digest shape lemmas -/

theorem theta_length (st : List Nat) : (theta st).length = 25 := by
  simp [theta]

theorem rhoPi_length (st : List Nat) : (rhoPi st).length = 25 := by
  simp [rhoPi]

theorem chi_length (st : List Nat) : (chi st).length = 25 := by
  simp [chi]

theorem keccakRound_length (st : List Nat) (r : Nat) :
    (keccakRound st r).length = 25 := by
  simp [keccakRound, chi_length]

theorem foldl_keccakRound_length :
    ∀ (l : List Nat) (st : List Nat), st.length = 25 →
      (l.foldl keccakRound st).length = 25 := by
  intro l
  induction l with
  | nil => intro st h; exact h
  | cons a t ih => intro st _; exact ih _ (keccakRound_length st a)

theorem keccakP_length (st : List Nat) (h : st.length = 25) :
    (keccakP st).length = 25 :=
  foldl_keccakRound_length _ st h

theorem xorBlock_length (st block : List Nat) : (xorBlock st block).length = 25 := by
  simp [xorBlock]

theorem absorb_length :
    ∀ (blocks : List (List Nat)) (st : List Nat), st.length = 25 →
      (absorb st blocks).length = 25 := by
  intro blocks
  induction blocks with
  | nil => intro st h; exact h
  | cons b t ih =>
    intro st _
    exact ih _ (keccakP_length _ (xorBlock_length st b))

theorem laneBytes_length (l : Nat) : (laneBytes l).length = 8 := by
  simp [laneBytes]

theorem sum_map_const_nat {α : Type} (c : Nat) :
    ∀ (l : List α), (l.map fun _ => c).sum = c * l.length := by
  intro l
  induction l with
  | nil => rfl
  | cons a t ih =>
    simp only [List.map_cons, List.sum_cons, ih, List.length_cons]
    ring

/-- The SHA3-256 digest always has exactly 32 bytes. -/
theorem sha3_256_length (msg : List Nat) : (sha3_256 msg).length = 32 := by
  unfold sha3_256
  rw [List.length_take]
  have h25 : (absorb (List.replicate 25 0)
      (chunks136 (msg ++ sha3pad msg.length).length (msg ++ sha3pad msg.length))).length
      = 25 :=
    absorb_length _ _ (List.length_replicate 25 0)
  have hflat : ((absorb (List.replicate 25 0)
      (chunks136 (msg ++ sha3pad msg.length).length
        (msg ++ sha3pad msg.length))).map laneBytes).flatten.length = 200 := by
    rw [List.length_flatten, List.map_map]
    have : (List.map (List.length ∘ laneBytes)
        (absorb (List.replicate 25 0)
          (chunks136 (msg ++ sha3pad msg.length).length (msg ++ sha3pad msg.length))))
        = List.map (fun _ => 8) (absorb (List.replicate 25 0)
          (chunks136 (msg ++ sha3pad msg.length).length (msg ++ sha3pad msg.length))) := by
      refine List.map_congr_left ?_
      intro a _
      exact laneBytes_length a
    rw [this, sum_map_const_nat, h25]
  rw [hflat]
  decide

theorem getD_mem_of_lt {α : Type} (l : List α) (d : α) (i : Nat) (h : i < l.length) :
    l.getD i d ∈ l := by
  induction l generalizing i with
  | nil => simp at h
  | cons a t ih =>
    cases i with
    | zero => exact List.mem_cons_self _ _
    | succ n => exact List.mem_cons_of_mem _ (ih n (by simpa using h))

theorem hexDigit_mem (n : Nat) : hexDigit n ∈ hexChars :=
  getD_mem_of_lt hexChars '0' (n % 16) (Nat.mod_lt n (by decide))

theorem hexEncode_length (bs : List Nat) :
    (hexEncode bs).length = 2 * bs.length := by
  show (bs.foldr (fun b acc => hexDigit (b / 16) :: hexDigit (b % 16) :: acc) []).length
      = 2 * bs.length
  induction bs with
  | nil => rfl
  | cons b t ih =>
    simp only [List.foldr_cons, List.length_cons, ih, List.length_cons]
    omega

theorem hexEncode_mem (bs : List Nat) :
    ∀ c ∈ (hexEncode bs).data, c ∈ hexChars := by
  show ∀ c ∈ bs.foldr (fun b acc => hexDigit (b / 16) :: hexDigit (b % 16) :: acc) [], _
  induction bs with
  | nil => intro c hc; simp at hc
  | cons b t ih =>
    intro c hc
    simp only [List.foldr_cons, List.mem_cons] at hc
    rcases hc with h | h | h
    · exact h ▸ hexDigit_mem _
    · exact h ▸ hexDigit_mem _
    · exact ih c h

/-! ## The claims -/

/-- Claim C1: with a configured cap `c`, `run_cycle` never counts more
than `c` iterations and logs exactly one event per counted iteration (so
the cap-hit dequeue is pushed back unprocessed and emits no event); and
Scenario B — two fragments, index 0 always at or above the `0.5`
threshold, index 1 never, cap `3` — ends with `iterations = 3`,
`absorbed = [fragment 0]`, `pending = [fragment 1]`, and exactly three
events: one absorption followed by two requeues. -/
theorem claim_C1_cap_semantics :
    (∀ fuel frags (thr : ℚ) limit r, run_cycle fuel frags thr (some limit) = some r →
      r.iterations ≤ limit ∧ r.events.length = r.iterations) ∧
    (run_cycle 9 scenBFrags (1 / 2) (some 3)).map (fun r =>
      (r.iterations, r.absorbed.map fun rep => rep.idx,
       r.pending.map fun rep => rep.idx, r.events.map fun e => e.event))
      = some (3, [0], [1],
          ["fragment_absorbed", "fragment_requeued", "fragment_requeued"]) := by
  constructor
  · intro fuel frags thr limit r h
    obtain ⟨_, _, hev, _, _, hcap⟩ := run_cycle_spec h
    exact ⟨hcap limit rfl, hev⟩
  · with_unfolding_all decide

theorem claim_C1_cap_semantics_witness :
    emptyCycleData.iterations ≤ 5 ∧
      emptyCycleData.events.length = emptyCycleData.iterations :=
  claim_C1_cap_semantics.1 0 [] 0 5 emptyCycleData rfl

/-- Claim C2 counterexample: the code computes `line_count`, `char_count`
and `token_count` over the whole body, not over its non-blank lines; on
body `"a\n\nb"` with language `"text"` the code yields `0.4236` (pinned
between `4236/10000` and `4237/10000`) while the claim's non-blank-line
counts yield `0.4333`, so the two disagree. -/
theorem claim_C2_counterexample :
    (4236 : ℚ) / 10000 ≤ hygiene_score "a\n\nb" "text" ∧
    hygiene_score "a\n\nb" "text" < 4237 / 10000 ∧
    (4333 : ℚ) / 10000 ≤ hygieneScoreClaimC2 "a\n\nb" "text" ∧
    hygieneScoreClaimC2 "a\n\nb" "text" < 4334 / 10000 ∧
    hygiene_score "a\n\nb" "text" < hygieneScoreClaimC2 "a\n\nb" "text" ∧
    ¬ hygiene_score "a\n\nb" "text" = hygieneScoreClaimC2 "a\n\nb" "text" := by
  refine ⟨?_, ?_, ?_, ?_, ?_, ?_⟩
  · with_unfolding_all decide
  · with_unfolding_all decide
  · with_unfolding_all decide
  · with_unfolding_all decide
  · with_unfolding_all decide
  · exact ne_of_lt (by with_unfolding_all decide)

/-- Claim C2 (amended): `hygiene_score` computes `line_count` over all
lines of the body, `char_count` over all characters of the body, and
`token_count` over the whitespace-split tokens of the whole body — each
floored at 1 — and returns
`0.25·token_density + 0.25·char_density + 0.25·indent_quality +
0.15·comment_penalty + structure_bonus` (densities against `8` tokens and
`120` chars per line, bonus `0.10` for python/rust/typescript and `0.05`
for config), clamped to `[0,1]` and rounded to four decimal places, as a
total function. -/
theorem claim_C2_amended_formula (body language : String) :
    hygiene_score body language =
      round4 (clampScore
        (0.25 * ratClamp (((max (tokenCount body.data) 1 : ℕ) : ℚ)
            / ((max (rustLines body.data).length 1 : ℕ) : ℚ) / 8) 0 1 +
         0.25 * ratClamp (((max body.data.length 1 : ℕ) : ℚ)
            / ((max (rustLines body.data).length 1 : ℕ) : ℚ) / 120) 0 1 +
         0.25 * ratClamp (compute_indent_balance body) 0 1 +
         0.15 * ratClamp (1 - ratClamp (computeCommentRatio body language) 0 0.8 / 0.8) 0 1 +
         (if language == "python" || language == "rust" || language == "typescript"
          then 0.1 else if language == "config" then 0.05 else 0))) := rfl

/-- Claim C3 counterexample: with a duplicated caller-assigned `idx`, the
absorbed and pending `idx` sets are not disjoint — fragment 0 (idx 7) is
absorbed while fragment 1 (idx 7) stays pending under cap 1. -/
theorem claim_C3_counterexample :
    (run_cycle 4 dupIdxFrags (1 / 2) (some 1)).map (fun r =>
      (r.absorbed.map fun rep => rep.idx, r.pending.map fun rep => rep.idx))
      = some ([7], [7]) ∧
    ¬ List.Disjoint ([7] : List Nat) ([7] : List Nat) := by
  constructor
  · with_unfolding_all decide
  · intro hd
    exact hd (List.mem_singleton.mpr rfl) (List.mem_singleton.mpr rfl)

/-- Claim C3 (amended): at termination the combined absorbed and pending
reports are a permutation of the submitted fragments (projected to
`idx`), so every submitted fragment appears in exactly one report slot;
the `idx`-set union always equals the submitted `idx` set, and the
`idx` sets are disjoint provided the submitted `idx` values are pairwise
distinct. -/
theorem claim_C3_partition :
    ∀ fuel frags (thr : ℚ) cap r, run_cycle fuel frags thr cap = some r →
      ((r.absorbed ++ r.pending).map (fun rep => rep.idx)).Perm
        (frags.map fun f => f.idx) ∧
      (∀ v, (v ∈ r.absorbed.map (fun rep => rep.idx) ∨
          v ∈ r.pending.map fun rep => rep.idx) ↔ v ∈ frags.map fun f => f.idx) ∧
      ((frags.map fun f => f.idx).Nodup →
        List.Disjoint (r.absorbed.map fun rep => rep.idx)
          (r.pending.map fun rep => rep.idx)) := by
  intro fuel frags thr cap r h
  obtain ⟨hperm, _, _, _, _, _⟩ := run_cycle_spec h
  have hperm' : (r.absorbed.map (fun rep => rep.idx)
      ++ r.pending.map fun rep => rep.idx).Perm (frags.map fun f => f.idx) := by
    rwa [← List.map_append]
  refine ⟨hperm, ?_, ?_⟩
  · intro v
    rw [← List.mem_append]
    exact hperm'.mem_iff
  · intro hnd
    have hnd' : (r.absorbed.map (fun rep => rep.idx)
        ++ r.pending.map fun rep => rep.idx).Nodup :=
      hperm'.nodup_iff.mpr hnd
    exact (List.nodup_append.mp hnd').2.2

theorem claim_C3_partition_witness :
    ((emptyCycleData.absorbed ++ emptyCycleData.pending).map (fun rep => rep.idx)).Perm
      (([] : List FragmentInput).map fun f => f.idx) :=
  (claim_C3_partition 0 [] 0 none emptyCycleData rfl).1

/-- Claim C4: at termination `anchors` is exactly the hash trace of the
absorbed reports in absorption order, so the two lists always have equal
length. -/
theorem claim_C4_anchor_trace :
    ∀ fuel frags (thr : ℚ) cap r, run_cycle fuel frags thr cap = some r →
      r.anchors = r.absorbed.map (fun rep => rep.hash) ∧
      r.anchors.length = r.absorbed.length := by
  intro fuel frags thr cap r h
  obtain ⟨_, hanch, _⟩ := run_cycle_spec h
  exact ⟨hanch, by rw [hanch, List.length_map]⟩

theorem claim_C4_anchor_trace_witness :
    emptyCycleData.anchors = emptyCycleData.absorbed.map (fun rep => rep.hash) ∧
      emptyCycleData.anchors.length = emptyCycleData.absorbed.length :=
  claim_C4_anchor_trace 0 [] 0 none emptyCycleData rfl

/-- Claim C5: `detect_language` applies exactly the first-match-wins
precedence python (py extension on the case-insensitively lowered path,
or line-anchored python keyword), rust (rs extension or rust keyword),
typescript (ts/tsx/js extension or JS/TS keyword), config
(json/yaml/yml extension), text; within each keyword family the
extension test is a disjunct alongside the keyword match. -/
theorem claim_C5_precedence (path body : String) :
    (pyCond path body = true → detect_language path body = "python") ∧
    (pyCond path body = false → rustCond path body = true →
      detect_language path body = "rust") ∧
    (pyCond path body = false → rustCond path body = false →
      tsCond path body = true → detect_language path body = "typescript") ∧
    (pyCond path body = false → rustCond path body = false →
      tsCond path body = false → cfgCond path = true →
      detect_language path body = "config") ∧
    (pyCond path body = false → rustCond path body = false →
      tsCond path body = false → cfgCond path = false →
      detect_language path body = "text") := by
  refine ⟨?_, ?_, ?_, ?_, ?_⟩
  · intro h1
    unfold pyCond at h1
    simp [detect_language, h1]
  · intro h1 h2
    unfold pyCond at h1
    unfold rustCond at h2
    simp only [Bool.or_eq_false_iff] at h1
    simp [detect_language, h1.1, h1.2, h2]
  · intro h1 h2 h3
    unfold pyCond at h1
    unfold rustCond at h2
    unfold tsCond at h3
    simp only [Bool.or_eq_false_iff] at h1 h2
    simp [detect_language, h1.1, h1.2, h2.1, h2.2, h3]
  · intro h1 h2 h3 h4
    unfold pyCond at h1
    unfold rustCond at h2
    unfold tsCond at h3
    unfold cfgCond at h4
    simp only [Bool.or_eq_false_iff] at h1 h2 h3
    simp [detect_language, h1.1, h1.2, h2.1, h2.2, h3.1.1.1, h3.1.1.2, h3.1.2, h3.2, h4]
  · intro h1 h2 h3 h4
    unfold pyCond at h1
    unfold rustCond at h2
    unfold tsCond at h3
    unfold cfgCond at h4
    simp only [Bool.or_eq_false_iff] at h1 h2 h3 h4
    simp [detect_language, h1.1, h1.2, h2.1, h2.2, h3.1.1.1, h3.1.1.2, h3.1.2, h3.2,
      h4.1.1, h4.1.2, h4.2]

theorem claim_C5_precedence_witness :
    pyCond "x.PY" "hello" = true ∧ detect_language "x.PY" "hello" = "python" :=
  ⟨by decide, (claim_C5_precedence "x.PY" "hello").1 (by decide)⟩

/-- Claim C6: the anchor hash is the 64-character lowercase-hex encoding
of the SHA3-256 digest of the body's UTF-8 bytes, the fingerprint is the
unpadded base64 of that digest's first 12 bytes, and both are functions
of the body alone, so fragments with equal bodies get equal hash and
fingerprint whatever their `path`, `idx` or `lines`. -/
theorem claim_C6_content_identity :
    (∀ body : String,
      compute_anchor_hash body = hexEncode (sha3_256 (utf8Bytes body.data)) ∧
      (compute_anchor_hash body).length = 64 ∧
      (∀ c ∈ (compute_anchor_hash body).data, c ∈ hexChars) ∧
      compute_fingerprint body = base64NoPad ((sha3_256 (utf8Bytes body.data)).take 12)) ∧
    (∀ f g : FragmentInput, f.body = g.body →
      (FragmentState.new f).hash = (FragmentState.new g).hash ∧
      (FragmentState.new f).fingerprint = (FragmentState.new g).fingerprint) := by
  constructor
  · intro body
    refine ⟨rfl, ?_, hexEncode_mem _, ?_⟩
    · show (hexEncode (sha3_256 (utf8Bytes body.data))).length = 64
      rw [hexEncode_length, sha3_256_length]
    · show base64NoPad ((sha3_256 (utf8Bytes body.data)).take
          (min 12 (sha3_256 (utf8Bytes body.data)).length)) = _
      rw [sha3_256_length]
      norm_num
  · intro f g hfg
    constructor
    · show compute_anchor_hash f.body = compute_anchor_hash g.body
      rw [hfg]
    · show compute_fingerprint f.body = compute_fingerprint g.body
      rw [hfg]

theorem claim_C6_content_identity_witness :
    ({ path := "a.py", idx := 0, lines := "", body := "same" } : FragmentInput).body
      = ({ path := "b.rs", idx := 1, lines := "x", body := "same" } : FragmentInput).body ∧
    (FragmentState.new { path := "a.py", idx := 0, lines := "", body := "same" }).hash
      = (FragmentState.new { path := "b.rs", idx := 1, lines := "x", body := "same" }).hash ∧
    (FragmentState.new { path := "a.py", idx := 0, lines := "", body := "same" }).fingerprint
      = (FragmentState.new
          { path := "b.rs", idx := 1, lines := "x", body := "same" }).fingerprint :=
  ⟨rfl, (claim_C6_content_identity.2 _ _ rfl).1, (claim_C6_content_identity.2 _ _ rfl).2⟩

/-- Claim C7: `compute_states` returns one state per fragment in input
order, and the thread-pool implementation — modelled as mapping over an
arbitrary order-preserving chunking of the input, for every `max_batch`
and thread count — is extensionally equal to the sequential map of
`FragmentState::new`. -/
theorem claim_C7_compute_states_order :
    ∀ (chunking : List (List FragmentInput)) (frags : List FragmentInput),
      chunking.flatten = frags →
      compute_states_par chunking = compute_states frags ∧
      compute_states frags = frags.map FragmentState.new ∧
      (compute_states frags).length = frags.length ∧
      ∀ k, (compute_states frags).get? k = (frags.get? k).map FragmentState.new := by
  intro chunking frags hflat
  subst hflat
  refine ⟨?_, rfl, by unfold compute_states; exact List.length_map _ _,
    fun k => get?_map_eq _ _ _⟩
  unfold compute_states_par compute_states
  exact (List.map_flatten _ _).symm

theorem claim_C7_compute_states_order_witness :
    compute_states_par [[{ path := "a", idx := 0, lines := "", body := "x" }],
        [{ path := "b", idx := 1, lines := "", body := "y" }]]
      = compute_states [{ path := "a", idx := 0, lines := "", body := "x" },
        { path := "b", idx := 1, lines := "", body := "y" }] :=
  (claim_C7_compute_states_order _ _ rfl).1

/-- Claim C8: the threshold is taken literally. At or below `0` every
fragment is absorbed at its first evaluation — an uncapped run over `n`
fragments ends with empty `pending`, `iterations = n` and `n` absorbed
reports; above `1` (scores being clamped to `[0,1]`) no evaluation ever
absorbs, so any terminating run has empty `absorbed` and `anchors`. -/
theorem claim_C8_threshold_literal :
    (∀ (frags : List FragmentInput) (thr : ℚ), thr ≤ 0 →
      ∃ r, run_cycle frags.length frags thr none = some r ∧
        r.pending = [] ∧ r.iterations = frags.length ∧
        r.absorbed.length = frags.length) ∧
    (∀ (frags : List FragmentInput) (thr : ℚ), 1 < thr →
      ∀ fuel cap r, run_cycle fuel frags thr cap = some r →
        r.absorbed = [] ∧ r.anchors = []) := by
  constructor
  · intro frags thr hthr
    by_cases hempty : frags.isEmpty
    · have hfr : frags = [] := List.isEmpty_iff.mp hempty
      subst hfr
      exact ⟨emptyCycleData, rfl, rfl, rfl, rfl⟩
    · obtain ⟨st', hrun, hq', hit, habs⟩ :=
        runLoop_absorbAll hthr frags.length
          { states := compute_states frags,
            queue := List.range (compute_states frags).length, anchors := [],
            events := [], absorbedIdx := [], iterations := 0, lastAnchor := none }
          (fun j hj => List.mem_range.mp hj)
          (by unfold compute_states; simp)
      have inv : LoopInv thr frags st' :=
        runLoop_inv frags.length _ st' (loopInv_init thr frags) hrun
      have hlen : (compute_states frags).length = frags.length := by
        unfold compute_states; exact List.length_map _ _
      have habs' : st'.absorbedIdx = List.range frags.length := by
        rw [habs, hlen]
        rfl
      have hiter : st'.iterations = frags.length := by
        rw [hit, hlen]
        simp
      obtain ⟨absSt, habsm, hfa⟩ := mapM_get?_total st'.absorbedIdx
        (fun i hi => by
          rw [habs'] at hi
          rw [inv.len]
          exact List.mem_range.mp hi)
      have hrc : run_cycle frags.length frags thr none
          = some { absorbed := absSt.map FragmentState.to_report,
                   pending := [], events := st'.events,
                   iterations := st'.iterations, anchors := st'.anchors } := by
        unfold run_cycle
        rw [if_neg hempty]
        simp only [hrun, habsm, hq', List.mapM_nil]
        rfl
      refine ⟨_, hrc, rfl, hiter, ?_⟩
      show (absSt.map FragmentState.to_report).length = frags.length
      rw [List.length_map, forall₂_length_eq hfa, habs', List.length_range]
  · intro frags thr hthr fuel cap r h
    by_cases hempty : frags.isEmpty
    · have hfr : frags = [] := List.isEmpty_iff.mp hempty
      subst hfr
      unfold run_cycle at h
      rw [if_pos hempty] at h
      cases h
      exact ⟨rfl, rfl⟩
    · unfold run_cycle at h
      rw [if_neg hempty] at h
      cases hrun : runLoop thr cap fuel
          { states := compute_states frags,
            queue := List.range (compute_states frags).length, anchors := [],
            events := [], absorbedIdx := [], iterations := 0,
            lastAnchor := none } with
      | none => simp only [hrun] at h; cases h
      | some st =>
        simp only [hrun] at h
        obtain ⟨habs0, hanch0⟩ := runLoop_noAbsorb hthr fuel _ st hrun
        have habs0' : st.absorbedIdx = [] := habs0
        have hanch0' : st.anchors = [] := hanch0
        simp only [habs0', List.mapM_nil] at h
        cases hpend : st.queue.mapM (fun i => st.states.get? i) with
        | none => simp only [hpend] at h; cases h
        | some pendSt =>
          simp only [hpend] at h
          cases h
          exact ⟨rfl, hanch0'⟩

theorem claim_C8_threshold_literal_witness :
    emptyCycleData.absorbed = [] ∧ emptyCycleData.anchors = [] :=
  claim_C8_threshold_literal.2 [] 2 (by norm_num) 0 none emptyCycleData rfl

/-- Claim C9: `run_cycle` returns a defined result with no runtime error:
the empty batch yields the zeroed result for any threshold, cap and fuel,
and for every batch and cap `c` the run with fuel `c + 1` terminates with
a defined result (in particular the loop's state lookups never go out of
range). -/
theorem claim_C9_no_runtime_error :
    (∀ (thr : ℚ) (cap : Option Nat) (fuel : Nat),
      run_cycle fuel [] thr cap
        = some { absorbed := [], pending := [], events := [],
                 iterations := 0, anchors := [] }) ∧
    (∀ (frags : List FragmentInput) (thr : ℚ) (limit : Nat),
      (run_cycle (limit + 1) frags thr (some limit)).isSome) := by
  constructor
  · intro thr cap fuel
    rfl
  · intro frags thr limit
    by_cases hempty : frags.isEmpty
    · unfold run_cycle
      rw [if_pos hempty]
      rfl
    · unfold run_cycle
      rw [if_neg hempty]
      have htot := @runLoop_total thr limit (limit + 1)
        { states := compute_states frags,
          queue := List.range (compute_states frags).length, anchors := [],
          events := [], absorbedIdx := [], iterations := 0, lastAnchor := none }
        (fun j hj => List.mem_range.mp hj)
        (by omega)
      obtain ⟨st, hrun⟩ := Option.isSome_iff_exists.mp htot
      simp only [hrun]
      have inv : LoopInv thr frags st :=
        runLoop_inv (limit + 1) _ st (loopInv_init thr frags) hrun
      obtain ⟨absSt, habsm, _⟩ := mapM_get?_total st.absorbedIdx
        (fun i hi => inv.len ▸ mem_lt_of_perm inv.perm (List.mem_append_left _ hi))
      obtain ⟨pendSt, hpendm, _⟩ := mapM_get?_total st.queue
        (fun i hi => inv.len ▸ mem_lt_of_perm inv.perm (List.mem_append_right _ hi))
      simp only [habsm, hpendm]
      rfl

/-- Claim C10: at termination every absorbed report carries a score at or
above the threshold; a pending report either carries no score (it was
never evaluated before the cap halted the loop — with cap `0` this holds
for every pending report) or carries the score of its most recent
evaluation, which failed the threshold. -/
theorem claim_C10_report_scores :
    ∀ fuel frags (thr : ℚ) cap r, run_cycle fuel frags thr cap = some r →
      (∀ rep ∈ r.absorbed, ∃ sc, rep.hygiene_score = some sc ∧ thr ≤ sc) ∧
      (∀ rep ∈ r.pending, rep.hygiene_score = none ∨
        ∃ sc, rep.hygiene_score = some sc ∧ ¬ thr ≤ sc) ∧
      (cap = some 0 → r.pending.all (fun rep => rep.hygiene_score.isNone) = true) := by
  intro fuel frags thr cap r h
  obtain ⟨_, _, _, habs, hpend, _⟩ := run_cycle_spec h
  refine ⟨habs, hpend, ?_⟩
  intro hcap
  subst hcap
  rw [List.all_eq_true]
  by_cases hempty : frags.isEmpty
  · unfold run_cycle at h
    rw [if_pos hempty] at h
    cases h
    intro rep hrep
    simp [emptyCycleData] at hrep
  · unfold run_cycle at h
    rw [if_neg hempty] at h
    obtain ⟨pendSt, hpendm, hfp⟩ := @mapM_get?_total (compute_states frags)
      (List.range (compute_states frags).length)
      (fun i hi => List.mem_range.mp hi)
    simp only [runLoop_cap0, List.mapM_nil, hpendm] at h
    cases h
    intro rep hrep
    obtain ⟨s, hsmem, hrep'⟩ := List.mem_map.mp hrep
    obtain ⟨i, _, hsi⟩ := forall₂_mem_right hfp s hsmem
    have hsi' : (frags.map FragmentState.new).get? i = some s := hsi
    rw [get?_map_eq] at hsi'
    cases hf : frags.get? i with
    | none => rw [hf] at hsi'; cases hsi'
    | some f =>
      rw [hf] at hsi'
      cases Option.some.inj hsi'
      rw [← hrep']
      rfl

theorem claim_C10_report_scores_witness :
    emptyCycleData.pending.all (fun rep => rep.hygiene_score.isNone) = true :=
  (claim_C10_report_scores 0 [] 0 (some 0) emptyCycleData rfl).2.2 rfl
